import Mathlib

/-!
Shallow embedding of the character-level RNN notebook
(`Character_Level_RNN_Solution.ipynb`): the vocabulary codec
(`char2int` / `int2char`), the batch windower (`get_batches`), and the
autoregressive sampler (`predict` / `sample`).  The LSTM network itself is
treated as an opaque collaborator (`Net`), torch's `softmax` is embedded with
an abstract exponential-like function `f : ℚ → ℚ`, and `np.random.choice` is
embedded as an abstract `pick` function together with the property that it
always returns one of its candidates.  The draw's failure modes are part of
the embedding: `p.topk(top_k)` raises for an oversized `top_k`, and
`np.random.choice` raises whenever the squeezed candidate arrays are
0-dimensional, i.e. whenever there is at most one candidate — in particular
always at `top_k = 1`.
-/

namespace CharRnn

/-- Model of `chars = tuple(set(text))`: the distinct characters of the text.
Python's set iteration order is arbitrary; first-occurrence order is one
admissible order, and all theorems below hold for an arbitrary order. -/
def buildVocab (text : List Char) : List Char :=
  text.dedup

/-- Model of `char2int = {ch: ii for ii, ch in int2char.items()}` applied to a
character: dictionary lookup, `KeyError` (here `none`) when the character is
not in the vocabulary. -/
def char2int (chars : List Char) (c : Char) : Option Nat :=
  if c ∈ chars then some (chars.indexOf c) else none

/-- Model of `int2char = dict(enumerate(chars))` applied to an id: dictionary
lookup, `KeyError` (here `none`) when the id is out of range. -/
def int2char (chars : List Char) (i : Nat) : Option Char :=
  chars.get? i

/-- `one_hot_encode` for a single encoded character: a length-`nLabels` row
with a `1` at position `i` and `0` elsewhere. -/
def one_hot_encode (i : Nat) (nLabels : Nat) : List ℚ :=
  (List.range nLabels).map fun j => if j = i then (1 : ℚ) else 0

/-! ## Batch windower (`get_batches`)

`get_batches(arr, batch_size, seq_length)` computes
`n_batches = len(arr) // (batch_size*seq_length)`, truncates `arr` to
`n_batches * batch_size * seq_length` elements, reshapes row-major into
`batch_size` rows, and slides a window of `seq_length` columns.  Below,
`N = batch_size`, `M = seq_length`, and the loop offset `n = t*M` is indexed
by the window number `t`. -/

/-- `n_batches = len(arr) // (batch_size * seq_length)`. -/
def nBatches (arr : List Nat) (N M : Nat) : Nat :=
  arr.length / (N * M)

/-- `arr = arr[:n_batches * total_batch_size]`. -/
def truncate (arr : List Nat) (N M : Nat) : List Nat :=
  arr.take (nBatches arr N M * (N * M))

/-- `arr.shape[1]` after `arr.reshape((batch_size, -1))`. -/
def gridWidth (arr : List Nat) (N M : Nat) : Nat :=
  nBatches arr N M * M

/-- Element `(i, j)` of the reshaped grid `arr.reshape((batch_size, -1))`:
row-major, so row `i`, column `j` is element `i * gridWidth + j` of the
truncated array. -/
def gridElem (arr : List Nat) (N M i j : Nat) : Nat :=
  (truncate arr N M).getD (i * gridWidth arr N M + j) 0

/-- `x = arr[:, n : n+seq_length]` for the window at offset `n = t*M`. -/
def windowInput (arr : List Nat) (N M t : Nat) : List (List Nat) :=
  (List.range N).map fun i =>
    (List.range M).map fun j => gridElem arr N M i (t * M + j)

/-- The target `y` of the window at offset `n = t*M`:
`y[:, :-1] = x[:, 1:]`, and `y[:, -1] = arr[:, n+seq_length]` unless that
column raises `IndexError`, in which case `y[:, -1] = arr[:, 0]`. -/
def windowTarget (arr : List Nat) (N M t : Nat) : List (List Nat) :=
  (List.range N).map fun i =>
    (List.range M).map fun j =>
      if j + 1 < M then gridElem arr N M i (t * M + (j + 1))
      else if t * M + M < gridWidth arr N M then gridElem arr N M i (t * M + M)
      else gridElem arr N M i 0

/-- `get_batches(arr, batch_size, seq_length)`: the finite sequence of
`(x, y)` windows yielded by the generator, one per offset
`n = 0, M, ..., (n_batches-1)*M`. -/
def get_batches (arr : List Nat) (N M : Nat) :
    List (List (List Nat) × List (List Nat)) :=
  (List.range (nBatches arr N M)).map fun t =>
    (windowInput arr N M t, windowTarget arr N M t)

/-- `getD` of a map over `List.range` at an in-range index. -/
theorem getD_map_range {α : Type} (f : Nat → α) (d : α) {t n : Nat} (ht : t < n) :
    ((List.range n).map f).getD t d = f t := by
  simp [List.getD_eq_getElem?_getD, List.getElem?_map, List.getElem?_range, ht]

/-- Truncating does not change the number of batches. -/
theorem nBatches_truncate (arr : List Nat) (N M : Nat) :
    nBatches (truncate arr N M) N M = nBatches arr N M := by
  unfold truncate nBatches
  rw [List.length_take, Nat.min_eq_left (Nat.div_mul_le_self arr.length (N * M))]
  rcases Nat.eq_zero_or_pos (N * M) with h0 | hpos
  · simp [h0]
  · exact Nat.mul_div_cancel _ hpos

/-- Truncation is idempotent. -/
theorem truncate_truncate (arr : List Nat) (N M : Nat) :
    truncate (truncate arr N M) N M = truncate arr N M := by
  conv_lhs => rw [truncate, nBatches_truncate]
  rw [truncate, List.take_take, Nat.min_self]

/-- Truncating does not change the grid width. -/
theorem gridWidth_truncate (arr : List Nat) (N M : Nat) :
    gridWidth (truncate arr N M) N M = gridWidth arr N M := by
  rw [gridWidth, gridWidth, nBatches_truncate]

/-- Truncating does not change any grid element. -/
theorem gridElem_truncate (arr : List Nat) (N M i j : Nat) :
    gridElem (truncate arr N M) N M i j = gridElem arr N M i j := by
  rw [gridElem, gridElem, truncate_truncate, gridWidth_truncate]

/-- C1: every window yielded by `get_batches` has `target[i][j] = input[i][j+1]`
for `j ≤ M-2`; the final target column is grid column `(t+1)*M` when that
column exists (`t+1 < n_batches`), and grid column `0` in the final window. -/
theorem batches_target_alignment (arr : List Nat) (N M t i j : Nat)
    (hM : 0 < M) (ht : t < nBatches arr N M) (hi : i < N) :
    (j + 1 < M →
      (((get_batches arr N M).getD t ([], [])).2.getD i []).getD j 0
        = (((get_batches arr N M).getD t ([], [])).1.getD i []).getD (j + 1) 0)
    ∧ (t + 1 < nBatches arr N M →
      (((get_batches arr N M).getD t ([], [])).2.getD i []).getD (M - 1) 0
        = gridElem arr N M i ((t + 1) * M))
    ∧ (t + 1 = nBatches arr N M →
      (((get_batches arr N M).getD t ([], [])).2.getD i []).getD (M - 1) 0
        = gridElem arr N M i 0) := by
  have hw : (get_batches arr N M).getD t ([], [])
      = (windowInput arr N M t, windowTarget arr N M t) := getD_map_range _ _ ht
  rw [hw]
  have hM1 : M - 1 < M := Nat.sub_lt hM Nat.one_pos
  have hlast : ¬ (M - 1 + 1 < M) := by omega
  refine ⟨?_, ?_, ?_⟩
  · intro hj
    have hjM : j < M := Nat.lt_of_succ_lt hj
    rw [windowInput, windowTarget, getD_map_range _ _ hi, getD_map_range _ _ hi,
      getD_map_range _ _ hjM, getD_map_range _ _ hj, if_pos hj]
  · intro hlt
    have hcol : t * M + M < gridWidth arr N M := by
      rw [gridWidth, ← Nat.succ_mul]
      exact (Nat.mul_lt_mul_right hM).mpr hlt
    rw [windowTarget, getD_map_range _ _ hi, getD_map_range _ _ hM1,
      if_neg hlast, if_pos hcol, Nat.succ_mul]
  · intro heq
    have hcol : ¬ (t * M + M < gridWidth arr N M) := by
      rw [gridWidth, ← Nat.succ_mul, Nat.succ_eq_add_one, heq]
      exact Nat.lt_irrefl _
    rw [windowTarget, getD_map_range _ _ hi, getD_map_range _ _ hM1,
      if_neg hlast, if_neg hcol]

/-- Witness for C1 at the concrete corpus of C4, window `t = 0`, row `i = 0`,
column `j = 0`. -/
theorem batches_target_alignment_witness :
    (0 + 1 < 3 →
      (((get_batches [0,1,2,0,1,2,0,1,2,0,1,2] 2 3).getD 0 ([], [])).2.getD 0 []).getD 0 0
        = (((get_batches [0,1,2,0,1,2,0,1,2,0,1,2] 2 3).getD 0 ([], [])).1.getD 0 []).getD
            (0 + 1) 0)
    ∧ (0 + 1 < nBatches [0,1,2,0,1,2,0,1,2,0,1,2] 2 3 →
      (((get_batches [0,1,2,0,1,2,0,1,2,0,1,2] 2 3).getD 0 ([], [])).2.getD 0 []).getD
          (3 - 1) 0
        = gridElem [0,1,2,0,1,2,0,1,2,0,1,2] 2 3 0 ((0 + 1) * 3))
    ∧ (0 + 1 = nBatches [0,1,2,0,1,2,0,1,2,0,1,2] 2 3 →
      (((get_batches [0,1,2,0,1,2,0,1,2,0,1,2] 2 3).getD 0 ([], [])).2.getD 0 []).getD
          (3 - 1) 0
        = gridElem [0,1,2,0,1,2,0,1,2,0,1,2] 2 3 0 0) :=
  batches_target_alignment [0,1,2,0,1,2,0,1,2,0,1,2] 2 3 0 0 0
    (by decide) (by decide) (by decide)

/-- C2: `get_batches` yields exactly `len(arr) // (N*M)` windows, and its
output only depends on the first `K*N*M` elements of the corpus (the trailing
remainder is discarded by the truncation before reshaping). -/
theorem batches_count_truncation (arr : List Nat) (N M : Nat) :
    (get_batches arr N M).length = arr.length / (N * M)
    ∧ get_batches arr N M
      = get_batches (arr.take (arr.length / (N * M) * (N * M))) N M := by
  constructor
  · simp [get_batches, nBatches]
  · show get_batches arr N M = get_batches (truncate arr N M) N M
    rw [get_batches, get_batches, nBatches_truncate]
    refine List.map_congr_left fun t _ => ?_
    rw [windowInput, windowInput, windowTarget, windowTarget]
    simp only [gridElem_truncate, gridWidth_truncate]

/-- C3: a corpus shorter than one full batch window (`len(arr) < N*M`)
yields zero windows, not an error. -/
theorem batches_degenerate (arr : List Nat) (N M : Nat) (h : arr.length < N * M) :
    get_batches arr N M = [] := by
  rw [get_batches, nBatches, Nat.div_eq_of_lt h]
  rfl

/-- Witness for C3: a one-element corpus with `N = 1, M = 2`. -/
theorem batches_degenerate_witness : get_batches [0] 1 2 = [] :=
  batches_degenerate [0] 1 2 (by decide)

/-- C4: on the encoded corpus of `"abcabcabcabc"` (a=0, b=1, c=2) with
`N = 2, M = 3`, there are `K = 2` windows and the first one is
`([[0,1,2],[0,1,2]], [[1,2,0],[1,2,0]])`. -/
theorem batches_concrete_abc :
    (get_batches [0,1,2,0,1,2,0,1,2,0,1,2] 2 3).length = 2
    ∧ (get_batches [0,1,2,0,1,2,0,1,2,0,1,2] 2 3).getD 0 ([], [])
      = ([[0,1,2],[0,1,2]], [[1,2,0],[1,2,0]]) := by
  decide

/-- C5: on the built vocabulary, decoding after encoding is the identity, and
encoding a character outside the vocabulary fails (`KeyError`, here `none`)
rather than returning a substitute. -/
theorem codec_roundtrip (text : List Char) (c : Char) :
    (c ∈ buildVocab text →
      (char2int (buildVocab text) c).bind (int2char (buildVocab text)) = some c)
    ∧ (c ∉ buildVocab text → char2int (buildVocab text) c = none) := by
  constructor
  · intro hc
    rw [char2int, if_pos hc]
    simpa [int2char] using List.indexOf_get? hc
  · intro hc
    rw [char2int, if_neg hc]

/-- Witness for C5: vocabulary of `"ab"`, round-trip on `'a'`, failure
on `'z'`. -/
theorem codec_roundtrip_witness :
    (char2int (buildVocab ['a', 'b']) 'a').bind (int2char (buildVocab ['a', 'b']))
      = some 'a'
    ∧ char2int (buildVocab ['a', 'b']) 'z' = none :=
  ⟨(codec_roundtrip ['a', 'b'] 'a').1 (by decide),
   (codec_roundtrip ['a', 'b'] 'z').2 (by decide)⟩

/-! ## Sampler (`predict` / `sample`)

The LSTM is embedded as an opaque collaborator `Net`: `forward` maps a
one-hot input row and a hidden state to a row of `V` raw scores and a new
hidden state, and `initHidden` models `net.init_hidden(1)`.  `F.softmax` is
embedded with an abstract exponential-like map `f : ℚ → ℚ` (the real
exponential is strictly positive; theorems that need this take it as a
hypothesis), and `np.random.choice(top_ch, p=w)` is embedded as an abstract
`pick : List Nat → List ℚ → Nat` whose only assumed property is that it
returns one of its candidates. -/

/-- Opaque model of the `CharRNN` network restricted to what `predict` and
`sample` use: its character list (tokens), its forward pass on a single
one-hot encoded character, and its initial hidden state `init_hidden(1)`. -/
structure Net (H : Type) where
  chars : List Char
  forward : List ℚ → H → List ℚ × H
  initHidden : H

/-- `F.softmax(out, dim=1)`: exponentiate with `f` and divide by the sum. -/
def softmax (f : ℚ → ℚ) (out : List ℚ) : List ℚ :=
  (out.map f).map fun e => e / (out.map f).sum

/-- First maximal pair (by second component) of `b :: l`: the fold underlying
`topk`, keeping the earlier element on ties. -/
def maxPair : List (Nat × ℚ) → Nat × ℚ → Nat × ℚ
  | [], b => b
  | p :: l, b => maxPair l (if b.2 < p.2 then p else b)

/-- Remove the first occurrence of a pair from a list. -/
def removeFirst : List (Nat × ℚ) → (Nat × ℚ) → List (Nat × ℚ)
  | [], _ => []
  | p :: l, b => if p = b then l else p :: removeFirst l b

/-- `p.topk(k)` on the indexed probabilities: repeatedly select a maximal
pair and remove it; returns the selected pairs (in descending value order)
and the rest. -/
def topkSplit : Nat → List (Nat × ℚ) → List (Nat × ℚ) × List (Nat × ℚ)
  | 0, l => ([], l)
  | _ + 1, [] => ([], [])
  | k + 1, p :: l =>
    let b := maxPair l p
    let s := topkSplit k (removeFirst (p :: l) b)
    (b :: s.1, s.2)

/-- The candidate character ids `top_ch` and their unnormalized probabilities
`p` that `predict` draws from: all of `arange(len(net.chars))` with the full
softmax output when `top_k is None`, else the top-`K` ids and probabilities
from `p.topk(top_k)`. -/
def candidates {H : Type} (net : Net H) (f : ℚ → ℚ) (out : List ℚ)
    (topk : Option Nat) : List Nat × List ℚ :=
  match topk with
  | none => (List.range net.chars.length, softmax f out)
  | some K =>
    let s := (topkSplit K (softmax f out).enum).1
    (s.map Prod.fst, s.map Prod.snd)

/-- `predict(net, char, h, top_k)`: encode the character (a `KeyError` when
it is outside the vocabulary), detach the hidden state (a `TypeError` when
`h` is `None`, before the model is ever invoked), run the forward pass,
convert scores to probabilities, restrict to the top-k candidates if asked,
and draw one character id via `np.random.choice(top_ch, p=p/p.sum())`.
Two failure paths of the draw are modelled as `none`:
`p.topk(top_k)` raises when `top_k` exceeds the vocabulary size, and — since
`top_ch.numpy().squeeze()` / `p.numpy().squeeze()` turn the `(1, k)` arrays
into 0-dimensional ones exactly when there is a single candidate —
`np.random.choice` raises (`TypeError`, `len()` of unsized object, on `p`)
whenever the candidate list has at most one element, notably at
`top_k = 1`. -/
def predict {H : Type} (net : Net H) (f : ℚ → ℚ)
    (pick : List Nat → List ℚ → Nat) (c : Char) (h? : Option H)
    (topk : Option Nat) : Option (Char × H) :=
  match char2int net.chars c with
  | none => none
  | some i =>
    match h? with
    | none => none
    | some h =>
      let r := net.forward (one_hot_encode i net.chars.length) h
      if net.chars.length < topk.getD 0 then none
      else
        let cw := candidates net f r.1 topk
        if cw.1.length ≤ 1 then none
        else
          let ch := pick cw.1 (cw.2.map fun q => q / cw.2.sum)
          match int2char net.chars ch with
          | none => none
          | some c' => some (c', r.2)

/-- The priming loop of `sample`: `for ch in prime: char, h = predict(...)`.
Tracks the latest predicted character (`none` while the Python variable
`char` is still unbound) and the hidden state. -/
def primeSteps {H : Type} (net : Net H) (f : ℚ → ℚ)
    (pick : List Nat → List ℚ → Nat) (topk : Option Nat) :
    List Char → Option Char → H → Option (Option Char × H)
  | [], last, h => some (last, h)
  | c :: cs, _, h =>
    match predict net f pick c (some h) topk with
    | none => none
    | some (c', h') => primeSteps net f pick topk cs (some c') h'

/-- The generation loop of `sample`: `size` further steps, each feeding the
previously emitted character back into `predict` and appending the result. -/
def genLoop {H : Type} (net : Net H) (f : ℚ → ℚ)
    (pick : List Nat → List ℚ → Nat) (topk : Option Nat) :
    Nat → Char → List Char → H → Option (List Char)
  | 0, _, acc, _ => some acc
  | n + 1, cur, acc, h =>
    match predict net f pick cur (some h) topk with
    | none => none
    | some (c', h') => genLoop net f pick topk n c' (acc ++ [c']) h'

/-- `sample(net, size, prime, top_k)`: run the prime characters through
`predict` starting from `init_hidden(1)`, append the one character sampled
after the last prime character (`chars.append(char)` — a `NameError`, here
`none`, when `prime` is empty and `char` was never bound), then generate
`size` further characters. -/
def sample {H : Type} (net : Net H) (f : ℚ → ℚ)
    (pick : List Nat → List ℚ → Nat) (size : Nat) (prime : List Char)
    (topk : Option Nat) : Option (List Char) :=
  match primeSteps net f pick topk prime none net.initHidden with
  | none => none
  | some (none, _) => none
  | some (some c, h) => genLoop net f pick topk size c (prime ++ [c]) h

/-- The one property assumed of `np.random.choice(cs, p=ws)`: it returns an
element of its (nonempty) candidate list. -/
def PickSpec (pick : List Nat → List ℚ → Nat) : Prop :=
  ∀ cs ws, cs ≠ [] → pick cs ws ∈ cs

/-- Well-formedness of the opaque network: the forward pass emits one raw
score per vocabulary character. -/
def NetSpec {H : Type} (net : Net H) : Prop :=
  ∀ x h, (net.forward x h).1.length = net.chars.length

/-- Validity of the `top_k` argument for a successful draw: at least two
candidates (with exactly one candidate the `(1,1) → 0-d` `.squeeze()` makes
`np.random.choice` raise, so `top_k = 1` — and an unset `top_k` over a
one-character vocabulary — always fail), and, when set, at most the
vocabulary size (else `p.topk(top_k)` raises). -/
def TopKOk {H : Type} (net : Net H) : Option Nat → Prop
  | none => 2 ≤ net.chars.length
  | some K => 2 ≤ K ∧ K ≤ net.chars.length

theorem maxPair_mem : ∀ (l : List (Nat × ℚ)) (b : Nat × ℚ), maxPair l b ∈ b :: l := by
  intro l
  induction l with
  | nil => intro b; simp [maxPair]
  | cons p l ih =>
    intro b
    have h := ih (if b.2 < p.2 then p else b)
    rw [List.mem_cons] at h
    rcases h with h | h
    · rw [maxPair, h]
      by_cases hb : b.2 < p.2 <;> simp [hb]
    · exact List.mem_cons_of_mem _ (List.mem_cons_of_mem _ h)

theorem le_maxPair : ∀ (l : List (Nat × ℚ)) (b q : Nat × ℚ), q ∈ b :: l →
    q.2 ≤ (maxPair l b).2 := by
  intro l
  induction l with
  | nil =>
    intro b q hq
    rw [List.mem_singleton] at hq
    rw [hq, maxPair]
  | cons p l ih =>
    intro b q hq
    rw [maxPair]
    rcases List.mem_cons.mp hq with h | hq'
    · refine le_trans ?_ (ih _ _ (List.mem_cons_self _ _))
      rw [h]
      by_cases hb : b.2 < p.2 <;> simp [hb, le_of_lt]
    · rcases List.mem_cons.mp hq' with h | h
      · refine le_trans ?_ (ih _ _ (List.mem_cons_self _ _))
        rw [h]
        by_cases hb : b.2 < p.2 <;> simp [hb, le_of_not_lt]
      · exact ih _ _ (List.mem_cons_of_mem _ h)

theorem removeFirst_subset : ∀ (l : List (Nat × ℚ)) (b : Nat × ℚ),
    removeFirst l b ⊆ l := by
  intro l
  induction l with
  | nil => intro b; simp [removeFirst]
  | cons p l ih =>
    intro b
    rw [removeFirst]
    by_cases hp : p = b
    · rw [if_pos hp]
      exact List.subset_cons_self _ _
    · rw [if_neg hp]
      exact List.cons_subset_cons _ (ih b)

theorem perm_cons_removeFirst : ∀ (l : List (Nat × ℚ)) (b : Nat × ℚ), b ∈ l →
    List.Perm l (b :: removeFirst l b) := by
  intro l
  induction l with
  | nil => intro b hb; cases hb
  | cons p l ih =>
    intro b hb
    rw [removeFirst]
    by_cases hp : p = b
    · rw [if_pos hp, hp]
    · rw [if_neg hp]
      have hbl : b ∈ l := by
        rcases List.mem_cons.mp hb with h | h
        · exact absurd h.symm hp
        · exact h
      exact ((ih b hbl).cons p).trans (List.Perm.swap _ _ _)

theorem removeFirst_length : ∀ (l : List (Nat × ℚ)) (b : Nat × ℚ), b ∈ l →
    (removeFirst l b).length + 1 = l.length := by
  intro l b hb
  exact ((perm_cons_removeFirst l b hb).length_eq).symm

theorem topkSplit_perm : ∀ (k : Nat) (l : List (Nat × ℚ)),
    List.Perm l ((topkSplit k l).1 ++ (topkSplit k l).2) := by
  intro k
  induction k with
  | zero => intro l; simp [topkSplit]
  | succ k ih =>
    intro l
    cases l with
    | nil => simp [topkSplit]
    | cons p l =>
      rw [topkSplit]
      refine (perm_cons_removeFirst (p :: l) (maxPair l p) (maxPair_mem l p)).trans ?_
      exact ((ih (removeFirst (p :: l) (maxPair l p))).cons _)

theorem topkSplit_max : ∀ (k : Nat) (l : List (Nat × ℚ)),
    ∀ x ∈ (topkSplit k l).1, ∀ q ∈ (topkSplit k l).2, q.2 ≤ x.2 := by
  intro k
  induction k with
  | zero => intro l x hx; simp [topkSplit] at hx
  | succ k ih =>
    intro l
    cases l with
    | nil => intro x hx; simp [topkSplit] at hx
    | cons p l =>
      rw [topkSplit]
      intro x hx q hq
      rcases List.mem_cons.mp hx with h | h
      · have hql : q ∈ removeFirst (p :: l) (maxPair l p) := by
          have hperm := topkSplit_perm k (removeFirst (p :: l) (maxPair l p))
          exact hperm.symm.subset (List.mem_append_right _ hq)
        rw [h]
        exact le_maxPair l p q (removeFirst_subset _ _ hql)
      · exact ih _ x h q hq

theorem topkSplit_length : ∀ (k : Nat) (l : List (Nat × ℚ)),
    (topkSplit k l).1.length = min k l.length := by
  intro k
  induction k with
  | zero => intro l; simp [topkSplit]
  | succ k ih =>
    intro l
    cases l with
    | nil => simp [topkSplit]
    | cons p l =>
      rw [topkSplit]
      have he := removeFirst_length (p :: l) (maxPair l p) (maxPair_mem l p)
      simp only [List.length_cons, ih] at he ⊢
      omega

theorem softmax_length (f : ℚ → ℚ) (out : List ℚ) :
    (softmax f out).length = out.length := by
  simp [softmax]

/-- Unfolding of `predict` once the character encodes successfully: the two
crash guards of the draw appear explicitly. -/
theorem predict_eq_of_char2int {H : Type} (net : Net H) (f : ℚ → ℚ)
    (pick : List Nat → List ℚ → Nat) (c : Char) (h : H) (topk : Option Nat)
    (i : Nat) (hi : char2int net.chars c = some i) :
    predict net f pick c (some h) topk
      = if net.chars.length < topk.getD 0 then none
        else if (candidates net f (net.forward (one_hot_encode i net.chars.length) h).1 topk).1.length ≤ 1
        then none
        else
          match int2char net.chars
              (pick (candidates net f (net.forward (one_hot_encode i net.chars.length) h).1 topk).1
                ((candidates net f (net.forward (one_hot_encode i net.chars.length) h).1 topk).2.map
                  fun q => q /
                    (candidates net f (net.forward (one_hot_encode i net.chars.length) h).1 topk).2.sum)) with
          | none => none
          | some c' => some (c', (net.forward (one_hot_encode i net.chars.length) h).2) := by
  unfold predict
  rw [hi]

/-- Under `TopKOk`, the requested `top_k` never exceeds the vocabulary. -/
theorem topk_getD_le {H : Type} (net : Net H) (topk : Option Nat)
    (htk : TopKOk net topk) : ¬ net.chars.length < topk.getD 0 := by
  cases topk with
  | none => exact Nat.not_lt_zero _
  | some K =>
    obtain ⟨-, hKle⟩ : 2 ≤ K ∧ K ≤ net.chars.length := htk
    exact Nat.not_lt.mpr hKle

/-- Unfolding of `predict` when additionally the draw is well-formed. -/
theorem predict_eq_of_valid {H : Type} (net : Net H) (f : ℚ → ℚ)
    (pick : List Nat → List ℚ → Nat) (c : Char) (h : H) (topk : Option Nat)
    (i : Nat) (hi : char2int net.chars c = some i)
    (hK : ¬ net.chars.length < topk.getD 0)
    (h2 : ¬ (candidates net f (net.forward (one_hot_encode i net.chars.length) h).1 topk).1.length ≤ 1) :
    predict net f pick c (some h) topk
      = match int2char net.chars
            (pick (candidates net f (net.forward (one_hot_encode i net.chars.length) h).1 topk).1
              ((candidates net f (net.forward (one_hot_encode i net.chars.length) h).1 topk).2.map
                fun q => q /
                  (candidates net f (net.forward (one_hot_encode i net.chars.length) h).1 topk).2.sum)) with
        | none => none
        | some c' => some (c', (net.forward (one_hot_encode i net.chars.length) h).2) := by
  rw [predict_eq_of_char2int net f pick c h topk i hi, if_neg hK, if_neg h2]

/-- Every candidate id is a valid vocabulary index. -/
theorem candidates_mem_lt {H : Type} (net : Net H) (f : ℚ → ℚ) (out : List ℚ)
    (topk : Option Nat) (hlen : out.length = net.chars.length) :
    ∀ id ∈ (candidates net f out topk).1, id < net.chars.length := by
  intro id hid
  cases topk with
  | none => simpa [candidates] using hid
  | some K =>
    rw [candidates] at hid
    rcases List.mem_map.mp hid with ⟨pr, hpr, hfst⟩
    have hsub : pr ∈ (softmax f out).enum := by
      have hperm := topkSplit_perm K (softmax f out).enum
      exact hperm.symm.subset (List.mem_append_left _ hpr)
    obtain ⟨hlt, -⟩ := List.getElem?_eq_some.mp (List.mem_enum_iff_getElem?.mp hsub)
    rw [softmax_length, hlen] at hlt
    rw [← hfst]
    exact hlt

/-- Under `TopKOk`, there are at least two candidates. -/
theorem candidates_two_le {H : Type} (net : Net H) (f : ℚ → ℚ) (out : List ℚ)
    (topk : Option Nat) (hlen : out.length = net.chars.length)
    (htk : TopKOk net topk) : 2 ≤ (candidates net f out topk).1.length := by
  cases topk with
  | none =>
    have h2 : 2 ≤ net.chars.length := htk
    simpa [candidates] using h2
  | some K =>
    obtain ⟨hK2, hKle⟩ : 2 ≤ K ∧ K ≤ net.chars.length := htk
    show 2 ≤ ((topkSplit K (softmax f out).enum).1.map Prod.fst).length
    rw [List.length_map, topkSplit_length, List.enum_length, softmax_length,
      hlen, Nat.min_eq_left hKle]
    exact hK2

/-- `predict` succeeds on a vocabulary character and a real hidden state, and
the predicted character is again a vocabulary character. -/
theorem predict_some {H : Type} (net : Net H) (f : ℚ → ℚ)
    (pick : List Nat → List ℚ → Nat) (c : Char) (h : H) (topk : Option Nat)
    (hn : NetSpec net) (hp : PickSpec pick) (htk : TopKOk net topk)
    (hc : c ∈ net.chars) :
    ∃ c' h', predict net f pick c (some h) topk = some (c', h')
      ∧ c' ∈ net.chars := by
  have hi : char2int net.chars c = some (net.chars.indexOf c) := by
    rw [char2int, if_pos hc]
  have hK := topk_getD_le net topk htk
  have h2 := candidates_two_le net f
    (net.forward (one_hot_encode (net.chars.indexOf c) net.chars.length) h).1 topk
    (hn _ _) htk
  rw [predict_eq_of_valid net f pick c h topk _ hi hK (by omega)]
  set out := net.forward (one_hot_encode (net.chars.indexOf c) net.chars.length) h
    with hout
  have hlen : out.1.length = net.chars.length := hn _ _
  set cw := candidates net f out.1 topk with hcw
  have hcs : cw.1 ≠ [] := by
    intro h0
    rw [h0, List.length_nil] at h2
    omega
  have hid := hp cw.1 (cw.2.map fun q => q / cw.2.sum) hcs
  have hlt := candidates_mem_lt net f out.1 topk hlen _ hid
  have hi2 : int2char net.chars (pick cw.1 (cw.2.map fun q => q / cw.2.sum))
      = some (net.chars.get ⟨pick cw.1 (cw.2.map fun q => q / cw.2.sum), hlt⟩) :=
    List.get?_eq_get hlt
  refine ⟨net.chars.get ⟨pick cw.1 (cw.2.map fun q => q / cw.2.sum), hlt⟩, out.2,
    ?_, List.get_mem _ _ _⟩
  rw [hi2]

/-- The priming loop succeeds when every prime character is in the
vocabulary, and (for a nonempty prime) ends with a vocabulary character
bound to the Python variable `char`. -/
theorem primeSteps_some {H : Type} (net : Net H) (f : ℚ → ℚ)
    (pick : List Nat → List ℚ → Nat) (topk : Option Nat)
    (hn : NetSpec net) (hp : PickSpec pick) (htk : TopKOk net topk) :
    ∀ (prime : List Char) (last : Option Char) (h : H),
      (∀ c ∈ prime, c ∈ net.chars) →
      ∃ r, primeSteps net f pick topk prime last h = some r
        ∧ (prime = [] → r.1 = last)
        ∧ (prime ≠ [] → ∃ c', r.1 = some c' ∧ c' ∈ net.chars) := by
  intro prime
  induction prime with
  | nil =>
    intro last h _
    exact ⟨(last, h), rfl, fun _ => rfl, fun hne => absurd rfl hne⟩
  | cons c cs ih =>
    intro last h hmem
    obtain ⟨c', h', heq, hc'⟩ :=
      predict_some net f pick c h topk hn hp htk (hmem c (List.mem_cons_self _ _))
    obtain ⟨r, hr, hnil, hcons⟩ :=
      ih (some c') h' fun d hd => hmem d (List.mem_cons_of_mem _ hd)
    refine ⟨r, ?_, fun hco => absurd hco (List.cons_ne_nil c cs), fun _ => ?_⟩
    · simp only [primeSteps]
      rw [heq]
      exact hr
    · by_cases hcs : cs = []
      · subst hcs
        exact ⟨c', hnil rfl, hc'⟩
      · exact hcons hcs

/-- The generation loop appends exactly `n` vocabulary characters. -/
theorem genLoop_some {H : Type} (net : Net H) (f : ℚ → ℚ)
    (pick : List Nat → List ℚ → Nat) (topk : Option Nat)
    (hn : NetSpec net) (hp : PickSpec pick) (htk : TopKOk net topk) :
    ∀ (n : Nat) (cur : Char) (acc : List Char) (h : H), cur ∈ net.chars →
      ∃ g, genLoop net f pick topk n cur acc h = some (acc ++ g)
        ∧ g.length = n := by
  intro n
  induction n with
  | zero =>
    intro cur acc h _
    refine ⟨[], ?_, rfl⟩
    show (some acc : Option (List Char)) = some (acc ++ [])
    rw [List.append_nil]
  | succ n ih =>
    intro cur acc h hcur
    obtain ⟨c', h', heq, hc'⟩ := predict_some net f pick cur h topk hn hp htk hcur
    obtain ⟨g, hg, hglen⟩ := ih c' (acc ++ [c']) h' hc'
    refine ⟨[c'] ++ g, ?_, by simp [hglen]⟩
    simp only [genLoop]
    rw [heq]
    show genLoop net f pick topk n c' (acc ++ [c']) h' = some (acc ++ ([c'] ++ g))
    rw [hg, List.append_assoc]

/-- C6 (amended): for a nonempty prime all of whose characters are in the
vocabulary, a well-formed network and pick function, and a well-formed draw
(`top_k` unset with at least two vocabulary characters, or
`2 ≤ top_k ≤ V` — at a single candidate, notably `top_k = 1`, the source
raises inside `np.random.choice` instead), `sample` returns the prime
followed by the generated characters — `1 + size` of them, for a total
length of `len(prime) + 1 + size`. -/
theorem sample_total_length {H : Type} (net : Net H) (f : ℚ → ℚ)
    (pick : List Nat → List ℚ → Nat) (size : Nat) (prime : List Char)
    (topk : Option Nat) (hn : NetSpec net) (hp : PickSpec pick)
    (htk : TopKOk net topk) (hprime : prime ≠ [])
    (hmem : ∀ c ∈ prime, c ∈ net.chars) :
    ∃ g, sample net f pick size prime topk = some (prime ++ g)
      ∧ (prime ++ g).length = prime.length + 1 + size := by
  obtain ⟨r, hr, -, hcons⟩ :=
    primeSteps_some net f pick topk hn hp htk prime none net.initHidden hmem
  obtain ⟨c', hr1, hc'⟩ := hcons hprime
  obtain ⟨r1, h1⟩ := r
  have hr1' : r1 = some c' := hr1
  subst hr1'
  obtain ⟨g, hg, hglen⟩ :=
    genLoop_some net f pick topk hn hp htk size c' (prime ++ [c']) h1 hc'
  refine ⟨[c'] ++ g, ?_, ?_⟩
  · simp only [sample]
    rw [hr]
    show genLoop net f pick topk size c' (prime ++ [c']) h1 = some (prime ++ ([c'] ++ g))
    rw [hg, List.append_assoc]
  · simp [hglen]
    omega

/-- The fixture network of the spec's concrete sampler scenario: vocabulary
`['A', 'B']`, and a forward pass that always scores `'B'` strictly highest. -/
def demoNet : Net Unit where
  chars := ['A', 'B']
  forward := fun _ _ => ([1, 2], ())
  initHidden := ()

/-- A pick function drawing the first candidate. -/
def pickFirst : List Nat → List ℚ → Nat := fun cs _ => cs.headD 0

theorem pickFirst_spec : PickSpec pickFirst := by
  intro cs ws h
  cases cs with
  | nil => exact absurd rfl h
  | cons a t => exact List.mem_cons_self _ _

theorem demoNet_spec : NetSpec demoNet := fun _ _ => rfl

/-- Witness for C6: the fixture network, prime `"A"`, `top_k = 2`, five
generated steps. -/
theorem sample_total_length_witness :
    ∃ g, sample demoNet (fun q => q) pickFirst 5 ['A'] (some 2) = some (['A'] ++ g)
      ∧ (['A'] ++ g).length = ['A'].length + 1 + 5 :=
  sample_total_length demoNet (fun q => q) pickFirst 5 ['A'] (some 2)
    demoNet_spec pickFirst_spec (by exact ⟨by decide, by decide⟩)
    (by decide) (by decide)

/-- Counterexample to C6 as stated: at `top_k = 1` the source raises inside
`np.random.choice` (the squeezed probability array is 0-dimensional), so
`sample` produces no output at all instead of `len(prime) + 1 + size`
characters. -/
theorem sample_topk1_no_output :
    sample demoNet (fun q => q) pickFirst 5 ['A'] (some 1) = none := by
  decide

/-- C7 (code bug): with `top_k = 1` the source never selects the
highest-probability character — `top_ch.numpy().squeeze()` and
`p.numpy().squeeze()` are 0-dimensional, `np.random.choice` raises before
drawing, and `sample` produces no output; evaluated here at a concrete
failing input on the fixture network. -/
theorem sample_topk1_crash :
    sample demoNet (fun q => q) pickFirst 3 ['B'] (some 1) = none := by
  decide

theorem sum_map_div (l : List ℚ) (T : ℚ) :
    (l.map fun q => q / T).sum = l.sum / T := by
  induction l with
  | nil => simp
  | cons x l ih => simp [ih, add_div]

/-- With a strictly positive exponential, every softmax output is positive. -/
theorem softmax_pos (f : ℚ → ℚ) (out : List ℚ) (hf : ∀ x : ℚ, 0 < f x)
    (h0 : out ≠ []) : ∀ q ∈ softmax f out, 0 < q := by
  intro q hq
  rw [softmax] at hq
  rcases List.mem_map.mp hq with ⟨e, he, rfl⟩
  rcases List.mem_map.mp he with ⟨x, hx, rfl⟩
  refine div_pos (hf x) (List.sum_pos _ (fun y hy => ?_) ?_)
  · rcases List.mem_map.mp hy with ⟨z, hz, rfl⟩
    exact hf z
  · intro hmn
    exact h0 (List.map_eq_nil_iff.mp hmn)

/-- With a strictly positive exponential, softmax is a probability
distribution: the outputs sum to 1. -/
theorem softmax_sum (f : ℚ → ℚ) (out : List ℚ) (hf : ∀ x : ℚ, 0 < f x)
    (h0 : out ≠ []) : (softmax f out).sum = 1 := by
  rw [softmax, sum_map_div]
  refine div_self (ne_of_gt (List.sum_pos _ (fun y hy => ?_) ?_))
  · rcases List.mem_map.mp hy with ⟨z, hz, rfl⟩
    exact hf z
  · intro hmn
    exact h0 (List.map_eq_nil_iff.mp hmn)

theorem mem_snd_of_mem_enum {l : List ℚ} {x : Nat × ℚ} (hx : x ∈ l.enum) :
    x.2 ∈ l := by
  obtain ⟨hlt, heq⟩ := List.getElem?_eq_some.mp (List.mem_enum_iff_getElem?.mp hx)
  rw [← heq]
  exact List.getElem_mem hlt

theorem zip_map_fst_snd (l : List (Nat × ℚ)) :
    (l.map Prod.fst).zip (l.map Prod.snd) = l := by
  induction l with
  | nil => rfl
  | cons p l ih => simp [ih]

/-- C8 (amended): `predict` converts raw scores to probabilities by softmax
(summing to 1); with `top_k` unset the drawn-from candidates are all `V`
character ids with the full softmax distribution; with `top_k = K` (for
`2 ≤ K ≤ V`; at `K = 1` the source raises in `np.random.choice` before
drawing) the candidate list has exactly `K` entries whose probabilities
dominate every non-candidate probability and whose renormalized weights sum
to 1; and the returned character is the pick from those candidates under the
normalized weights. -/
theorem predict_softmax_policy {H : Type} (net : Net H) (f : ℚ → ℚ)
    (pick : List Nat → List ℚ → Nat) (c : Char) (h : H) (topk : Option Nat)
    (i : Nat) (out : List ℚ) (cw : List Nat × List ℚ)
    (hn : NetSpec net) (hf : ∀ x : ℚ, 0 < f x) (htk : TopKOk net topk)
    (hi : char2int net.chars c = some i)
    (hout : out = (net.forward (one_hot_encode i net.chars.length) h).1)
    (hcw : cw = candidates net f out topk) :
    (softmax f out).sum = 1
    ∧ (topk = none → cw = (List.range net.chars.length, softmax f out))
    ∧ (∀ K, topk = some K → cw.1.length = K
        ∧ (cw.2.map fun q => q / cw.2.sum).sum = 1
        ∧ ∃ rest, List.Perm (softmax f out).enum (cw.1.zip cw.2 ++ rest)
            ∧ ∀ x ∈ cw.1.zip cw.2, ∀ q ∈ rest, q.2 ≤ x.2)
    ∧ predict net f pick c (some h) topk
        = (int2char net.chars (pick cw.1 (cw.2.map fun q => q / cw.2.sum))).map
            fun c' => (c', (net.forward (one_hot_encode i net.chars.length) h).2) := by
  have hV : 0 < net.chars.length := by
    rw [char2int] at hi
    by_cases hm : c ∈ net.chars
    · exact List.length_pos.mpr (List.ne_nil_of_mem hm)
    · rw [if_neg hm] at hi; cases hi
  have hlen : out.length = net.chars.length := by
    rw [hout]
    exact hn _ _
  have hne : out ≠ [] := by
    intro h0
    rw [h0, List.length_nil] at hlen
    omega
  refine ⟨softmax_sum f out hf hne, ?_, ?_, ?_⟩
  · intro htopk
    rw [hcw, htopk, candidates]
  · intro K hK
    subst hK
    obtain ⟨hK2, hKle⟩ : 2 ≤ K ∧ K ≤ net.chars.length := htk
    have hcw1 : cw.1 = (topkSplit K (softmax f out).enum).1.map Prod.fst := by
      rw [hcw]; rfl
    have hcw2 : cw.2 = (topkSplit K (softmax f out).enum).1.map Prod.snd := by
      rw [hcw]; rfl
    have hslen : (topkSplit K (softmax f out).enum).1.length = K := by
      rw [topkSplit_length, List.enum_length, softmax_length, hlen]
      exact Nat.min_eq_left hKle
    have hzip : cw.1.zip cw.2 = (topkSplit K (softmax f out).enum).1 := by
      rw [hcw1, hcw2, zip_map_fst_snd]
    refine ⟨by rw [hcw1, List.length_map, hslen], ?_, ?_⟩
    · rw [hcw2, sum_map_div]
      refine div_self (ne_of_gt (List.sum_pos _ (fun y hy => ?_) ?_))
      · rcases List.mem_map.mp hy with ⟨p, hp, rfl⟩
        have hpe : p ∈ (softmax f out).enum :=
          (topkSplit_perm K _).symm.subset (List.mem_append_left _ hp)
        exact softmax_pos f out hf hne _ (mem_snd_of_mem_enum hpe)
      · intro h0
        have hl0 := congrArg List.length h0
        rw [List.length_map, hslen, List.length_nil] at hl0
        omega
    · refine ⟨(topkSplit K (softmax f out).enum).2, ?_, ?_⟩
      · rw [hzip]
        exact topkSplit_perm K _
      · rw [hzip]
        exact topkSplit_max K _
  · have hKg := topk_getD_le net topk htk
    have h2 : 2 ≤ (candidates net f
        (net.forward (one_hot_encode i net.chars.length) h).1 topk).1.length := by
      rw [← hout]
      exact candidates_two_le net f out topk hlen htk
    rw [predict_eq_of_valid net f pick c h topk i hi hKg (by omega), ← hout, ← hcw]
    cases int2char net.chars (pick cw.1 (cw.2.map fun q => q / cw.2.sum)) <;> rfl

/-- Witness for C8: the fixture network, character `'A'` (id 0), raw scores
`[1, 2]`, constant positive exponential, `top_k = 2`. -/
theorem predict_softmax_policy_witness :
    (softmax (fun _ => (1 : ℚ)) [1, 2]).sum = 1
    ∧ ((some 2 : Option Nat) = none →
        candidates demoNet (fun _ => (1 : ℚ)) [1, 2] (some 2)
          = (List.range demoNet.chars.length, softmax (fun _ => (1 : ℚ)) [1, 2]))
    ∧ (∀ K, (some 2 : Option Nat) = some K →
        (candidates demoNet (fun _ => (1 : ℚ)) [1, 2] (some 2)).1.length = K
        ∧ ((candidates demoNet (fun _ => (1 : ℚ)) [1, 2] (some 2)).2.map fun q =>
              q / (candidates demoNet (fun _ => (1 : ℚ)) [1, 2] (some 2)).2.sum).sum = 1
        ∧ ∃ rest, List.Perm (softmax (fun _ => (1 : ℚ)) [1, 2]).enum
              ((candidates demoNet (fun _ => (1 : ℚ)) [1, 2] (some 2)).1.zip
                  (candidates demoNet (fun _ => (1 : ℚ)) [1, 2] (some 2)).2 ++ rest)
            ∧ ∀ x ∈ (candidates demoNet (fun _ => (1 : ℚ)) [1, 2] (some 2)).1.zip
                  (candidates demoNet (fun _ => (1 : ℚ)) [1, 2] (some 2)).2,
                ∀ q ∈ rest, q.2 ≤ x.2)
    ∧ predict demoNet (fun _ => (1 : ℚ)) pickFirst 'A' (some ()) (some 2)
        = (int2char demoNet.chars (pickFirst
              (candidates demoNet (fun _ => (1 : ℚ)) [1, 2] (some 2)).1
              ((candidates demoNet (fun _ => (1 : ℚ)) [1, 2] (some 2)).2.map fun q =>
                q / (candidates demoNet (fun _ => (1 : ℚ)) [1, 2] (some 2)).2.sum))).map
            fun c' => (c', (demoNet.forward (one_hot_encode 0 demoNet.chars.length) ()).2) :=
  predict_softmax_policy demoNet (fun _ => (1 : ℚ)) pickFirst 'A' () (some 2) 0
    [1, 2] (candidates demoNet (fun _ => (1 : ℚ)) [1, 2] (some 2))
    demoNet_spec (fun _ => one_pos) ⟨by decide, by decide⟩ (by decide) rfl rfl

/-- Counterexample to C8 as stated: at `top_k = 1` the source raises inside
`np.random.choice` before drawing (the squeezed top-k arrays are
0-dimensional), so `predict` returns no drawn character at all. -/
theorem predict_topk1_no_draw :
    predict demoNet (fun _ => (1 : ℚ)) pickFirst 'A' (some ()) (some 1) = none := by
  decide

/-- C9: `sample` on an empty prime fails immediately (the Python `NameError`
on `chars.append(char)`, modelled as `none`): no generation is attempted. -/
theorem sample_empty_prime {H : Type} (net : Net H) (f : ℚ → ℚ)
    (pick : List Nat → List ℚ → Nat) (size : Nat) (topk : Option Nat) :
    sample net f pick size [] topk = none := rfl

theorem predict_none_hidden_aux {H : Type} (net : Net H) (f : ℚ → ℚ)
    (pick : List Nat → List ℚ → Nat) (c : Char) (topk : Option Nat) :
    predict net f pick c none topk = none := by
  unfold predict
  cases char2int net.chars c <;> rfl

/-- C10: calling `predict` with the default hidden state `h = None` fails
before the model is invoked — the result is `none` and is unchanged under an
arbitrary replacement of the network's forward function — while `sample`
always passes `some (init_hidden 1)` to its first `predict` call. -/
theorem predict_requires_hidden {H : Type} (net : Net H) (f : ℚ → ℚ)
    (pick : List Nat → List ℚ → Nat) (c : Char) (topk : Option Nat) :
    predict net f pick c none topk = none
    ∧ (∀ fw : List ℚ → H → List ℚ × H,
        predict { net with forward := fw } f pick c none topk
          = predict net f pick c none topk)
    ∧ (∀ (size : Nat) (rest : List Char),
        sample net f pick size (c :: rest) topk
          = match predict net f pick c (some net.initHidden) topk with
            | none => none
            | some p =>
              match primeSteps net f pick topk rest (some p.1) p.2 with
              | none => none
              | some (none, _) => none
              | some (some cl, hl) =>
                genLoop net f pick topk size cl ((c :: rest) ++ [cl]) hl) := by
  refine ⟨predict_none_hidden_aux net f pick c topk, ?_, ?_⟩
  · intro fw
    rw [predict_none_hidden_aux, predict_none_hidden_aux]
  · intro size rest
    simp only [sample, primeSteps]
    cases predict net f pick c (some net.initHidden) topk with
    | none => rfl
    | some p =>
      obtain ⟨c', h'⟩ := p
      rfl

end CharRnn
